import Mathlib

/-!
# Verification of the profile synchronization and merge engine

Shallow embedding of the snapshot-merge core of the `resume-generator`
repository (TypeScript):

* the activity dedup-merge performed by the `profile` command
  (`CommandSetting.COMMAND_PROFILE`, lines 83-96 of the command module);
* `MetaField.OnDeserialized` (the decode hook of the metadata envelope,
  `generator/src/profile.ts` lines 32-49);
* `Profile.updateMeta` (`generator/src/profile.ts` lines 74-89).

Machine-level conventions of the embedding:

* A JavaScript value that may be `undefined` is an `Option`; `none`
  models the absent/`undefined` value.
* lodash `_.isEmpty` is embedded per its documented semantics: `true`
  on `undefined`, `null`, numbers, empty strings and empty arrays.
* The module-load constant `MetaField.CURRENT_DATE`
  (`new Date().toISOString()`) is passed explicitly as a parameter
  `now : String`, the one external input of the decode/merge pipeline.
-/

/--
A Github activity event (`GithubEvent`, defined in `github_model.ts`,
which only its users appear in the sources).  The merge code inspects a
single field, `event_id` (a string, possibly `undefined`, hence
`Option String`); `type` is the discriminant used for reporting; all
remaining variant-specific data is irrelevant to the merge and is
abstracted as an opaque `payload` so that two events with the same
`event_id` can still differ.
-/
structure GithubEvent where
  event_id : Option String
  type : String
  payload : String
deriving DecidableEq, Repr

/--
The dedup loop of the `profile` command (lines 87-94):

```ts
for (let i = 0; i < allActs.length; i++) {
  let act = allActs[i];
  if (!uniqEventIds.has(act.event_id)) {
    uniqEventIds.add(act.event_id);
    uniqActs.push(act);
  }
}
```

`seen` is the contents of the JS `Set uniqEventIds` (its keys are
`act.event_id` values, i.e. strings or `undefined`).
-/
def uniqueActs : List GithubEvent → List (Option String) → List GithubEvent
  | [], _ => []
  | a :: rest, seen =>
    if a.event_id ∈ seen then uniqueActs rest seen
    else a :: uniqueActs rest (a.event_id :: seen)

/--
The whole activity merge of the `profile` command (lines 83-94):

```ts
let allActs = currentProf.activities.concat(prevProf.activities)
                  .filter(a => !_.isEmpty(a));
```

followed by the dedup loop.  An entry of an activities array is
`Option GithubEvent`: `none` models an entry for which `_.isEmpty(a)`
holds (`undefined`, `null` or an object with no own key) and is removed
by the `filter`; any actual event object has own keys, so `_.isEmpty`
is `false` on it and it survives the `filter` regardless of its
`event_id`.
-/
def mergeActs (current prev : List (Option GithubEvent)) : List GithubEvent :=
  uniqueActs ((current ++ prev).filterMap id) []

/--
The lodash `_.union(a, b)` on string arrays: the concatenation of `a`
and `b` restricted to the first occurrence of each element, in order of
first occurrence.
-/
def dedupKeys : List String → List String → List String
  | [], _ => []
  | x :: xs, seen => if x ∈ seen then dedupKeys xs seen else x :: dedupKeys xs (x :: seen)

/-- lodash `_.union` on two string arrays. -/
def lodashUnion (a b : List String) : List String :=
  dedupKeys (a ++ b) []

section UniqueActsLemmas

/-- Everything the dedup loop keeps comes from its input, in order. -/
theorem uniqueActs_sublist (l : List GithubEvent) (seen : List (Option String)) :
    (uniqueActs l seen).Sublist l := by
  induction l generalizing seen with
  | nil => simp [uniqueActs]
  | cons a rest ih =>
    by_cases h : a.event_id ∈ seen
    · simp only [uniqueActs, if_pos h]
      exact (ih seen).trans (List.sublist_cons_self a rest)
    · simp only [uniqueActs, if_neg h]
      exact (ih (a.event_id :: seen)).cons₂ a

/-- The ids kept by the dedup loop avoid `seen` and are pairwise distinct. -/
theorem uniqueActs_ids_nodup (l : List GithubEvent) (seen : List (Option String)) :
    ((uniqueActs l seen).map GithubEvent.event_id).Nodup ∧
      ∀ i ∈ (uniqueActs l seen).map GithubEvent.event_id, i ∉ seen := by
  induction l generalizing seen with
  | nil => simp [uniqueActs]
  | cons a rest ih =>
    by_cases h : a.event_id ∈ seen
    · simpa only [uniqueActs, if_pos h] using ih seen
    · obtain ⟨hnd, hout⟩ := ih (a.event_id :: seen)
      simp only [uniqueActs, if_neg h, List.map_cons, List.nodup_cons]
      refine ⟨⟨fun hmem => ?_, hnd⟩, ?_⟩
      · exact hout _ hmem (List.mem_cons_self _ _)
      · intro i hi
        rcases List.mem_cons.mp hi with rfl | hi
        · exact h
        · exact fun hs => hout _ hi (List.mem_cons_of_mem _ hs)

/-- Every id of the input that is not already `seen` survives the loop. -/
theorem uniqueActs_ids_cover (l : List GithubEvent) (seen : List (Option String))
    (i : Option String) (hmem : i ∈ l.map GithubEvent.event_id) (hout : i ∉ seen) :
    i ∈ (uniqueActs l seen).map GithubEvent.event_id := by
  induction l generalizing seen with
  | nil => simp at hmem
  | cons a rest ih =>
    rcases List.mem_cons.mp hmem with hi | hi
    · subst hi
      by_cases h : a.event_id ∈ seen
      · exact absurd h hout
      · simp [uniqueActs, if_neg h]
    · by_cases h : a.event_id ∈ seen
      · simpa only [uniqueActs, if_pos h] using ih seen hi hout
      · by_cases hia : i = a.event_id
        · subst hia; simp [uniqueActs, if_neg h]
        · have : i ∉ a.event_id :: seen := by
            intro hc
            rcases List.mem_cons.mp hc with hc | hc
            · exact hia hc
            · exact hout hc
          simp only [uniqueActs, if_neg h, List.map_cons]
          exact List.mem_cons_of_mem _ (ih (a.event_id :: seen) hi this)

/-- For an id not in `seen`, the loop keeps exactly the input's first
occurrence of that id, and it stays the first occurrence of the output. -/
theorem uniqueActs_find? (l : List GithubEvent) (seen : List (Option String))
    (i : Option String) (hout : i ∉ seen) :
    (uniqueActs l seen).find? (fun e => e.event_id == i)
      = l.find? (fun e => e.event_id == i) := by
  induction l generalizing seen with
  | nil => simp [uniqueActs]
  | cons a rest ih =>
    by_cases h : a.event_id ∈ seen
    · have hne : (a.event_id == i) = false := by
        simp only [beq_eq_false_iff_ne, ne_eq]
        intro hc; exact hout (hc ▸ h)
      simp only [uniqueActs, if_pos h, List.find?_cons, hne]
      exact ih seen hout
    · by_cases hia : a.event_id = i
      · subst hia
        rw [uniqueActs, if_neg h]
        simp [List.find?_cons]
      · have hne : (a.event_id == i) = false := by
          simpa using hia
        have : i ∉ a.event_id :: seen := by
          intro hc
          rcases List.mem_cons.mp hc with hc | hc
          · exact hia hc.symm
          · exact hout hc
        simp only [uniqueActs, if_neg h, List.find?_cons, hne]
        exact ih (a.event_id :: seen) this

/-- Seen sets with the same members drive the loop identically. -/
theorem uniqueActs_congr (l : List GithubEvent) (s₁ s₂ : List (Option String))
    (h : ∀ i, i ∈ s₁ ↔ i ∈ s₂) : uniqueActs l s₁ = uniqueActs l s₂ := by
  induction l generalizing s₁ s₂ with
  | nil => simp [uniqueActs]
  | cons a rest ih =>
    by_cases hmem : a.event_id ∈ s₁
    · rw [uniqueActs, uniqueActs, if_pos hmem, if_pos ((h _).mp hmem)]
      exact ih s₁ s₂ h
    · rw [uniqueActs, uniqueActs, if_neg hmem, if_neg (fun hc => hmem ((h _).mpr hc))]
      refine congrArg _ (ih _ _ fun i => ?_)
      simp only [List.mem_cons]
      exact or_congr Iff.rfl (h i)

/-- Splitting the loop over an append: the second half runs with the
kept ids of the first half added to the seen set. -/
theorem uniqueActs_append (l₁ l₂ : List GithubEvent) (seen : List (Option String)) :
    uniqueActs (l₁ ++ l₂) seen
      = uniqueActs l₁ seen
          ++ uniqueActs l₂ ((uniqueActs l₁ seen).map GithubEvent.event_id ++ seen) := by
  induction l₁ generalizing seen with
  | nil => simp [uniqueActs]
  | cons a rest ih =>
    by_cases h : a.event_id ∈ seen
    · have h2 : uniqueActs ((a :: rest) ++ l₂) seen = uniqueActs (rest ++ l₂) seen := by
        rw [List.cons_append, uniqueActs, if_pos h]
      have h1 : uniqueActs (a :: rest) seen = uniqueActs rest seen := by
        rw [uniqueActs, if_pos h]
      rw [h2, ih seen, h1]
    · have h2 : uniqueActs ((a :: rest) ++ l₂) seen
          = a :: uniqueActs (rest ++ l₂) (a.event_id :: seen) := by
        rw [List.cons_append, uniqueActs, if_neg h]
      have h1 : uniqueActs (a :: rest) seen = a :: uniqueActs rest (a.event_id :: seen) := by
        rw [uniqueActs, if_neg h]
      rw [h2, ih (a.event_id :: seen), h1]
      simp only [List.map_cons, List.cons_append]
      refine congrArg _ (congrArg _ (uniqueActs_congr _ _ _ fun i => ?_))
      simp only [List.mem_append, List.mem_cons]
      tauto

/-- With pairwise-distinct ids disjoint from `seen`, the loop keeps everything. -/
theorem uniqueActs_keep_all (l : List GithubEvent) (seen : List (Option String))
    (hnd : (l.map GithubEvent.event_id).Nodup)
    (hout : ∀ e ∈ l, e.event_id ∉ seen) : uniqueActs l seen = l := by
  induction l generalizing seen with
  | nil => simp [uniqueActs]
  | cons a rest ih =>
    simp only [List.map_cons, List.nodup_cons] at hnd
    have h : a.event_id ∉ seen := hout a (List.mem_cons_self _ _)
    rw [uniqueActs, if_neg h]
    refine congrArg _ (ih (a.event_id :: seen) hnd.2 fun e he => ?_)
    intro hc
    rcases List.mem_cons.mp hc with hc | hc
    · exact hnd.1 (hc ▸ List.mem_map_of_mem GithubEvent.event_id he)
    · exact hout e (List.mem_cons_of_mem _ he) hc

/-- If every id of the input is already seen, the loop drops everything. -/
theorem uniqueActs_drop_all (l : List GithubEvent) (seen : List (Option String))
    (hin : ∀ e ∈ l, e.event_id ∈ seen) : uniqueActs l seen = [] := by
  induction l with
  | nil => rfl
  | cons a rest ih =>
    rw [uniqueActs, if_pos (hin a (List.mem_cons_self _ _))]
    exact ih fun e he => hin e (List.mem_cons_of_mem _ he)

/-- On event lists with no empty entries, the merge is the append-then-dedup. -/
theorem mergeActs_map_some (A B : List GithubEvent) :
    mergeActs (A.map some) (B.map some) = uniqueActs (A ++ B) [] := by
  simp [mergeActs, ← List.map_append, List.filterMap_map, Function.comp_def]

end UniqueActsLemmas

section DedupKeysLemmas

/-- Membership characterization of the lodash union loop. -/
theorem mem_dedupKeys (l seen : List String) (x : String) :
    x ∈ dedupKeys l seen ↔ x ∈ l ∧ x ∉ seen := by
  induction l generalizing seen with
  | nil => simp [dedupKeys]
  | cons a rest ih =>
    by_cases h : a ∈ seen
    · rw [dedupKeys, if_pos h, ih seen]
      constructor
      · rintro ⟨hx, hns⟩
        exact ⟨List.mem_cons_of_mem _ hx, hns⟩
      · rintro ⟨hx, hns⟩
        rcases List.mem_cons.mp hx with rfl | hx
        · exact absurd h hns
        · exact ⟨hx, hns⟩
    · rw [dedupKeys, if_neg h]
      constructor
      · intro hx
        rcases List.mem_cons.mp hx with rfl | hx
        · exact ⟨List.mem_cons_self _ _, h⟩
        · obtain ⟨h1, h2⟩ := (ih (a :: seen)).mp hx
          exact ⟨List.mem_cons_of_mem _ h1, fun hc => h2 (List.mem_cons_of_mem _ hc)⟩
      · rintro ⟨hx, hns⟩
        by_cases hxa : x = a
        · subst hxa; exact List.mem_cons_self _ _
        · rcases List.mem_cons.mp hx with rfl | hx
          · exact absurd rfl hxa
          · refine List.mem_cons_of_mem _ ((ih (a :: seen)).mpr ⟨hx, fun hc => ?_⟩)
            rcases List.mem_cons.mp hc with hc | hc
            · exact hxa hc
            · exact hns hc

/-- The lodash union `_.union(a, b)` contains exactly the elements of `a` and of `b`. -/
theorem mem_lodashUnion (a b : List String) (x : String) :
    x ∈ lodashUnion a b ↔ x ∈ a ∨ x ∈ b := by
  simp [lodashUnion, mem_dedupKeys]

end DedupKeysLemmas

/--
The raw JSON value found at key `schema_version` of the `_$meta`
subtree: the key may be absent (JS `undefined`), explicitly `null`, a
number, or a string.
-/
inductive RawVersion where
  | absent
  | rnull
  | num (n : Int)
  | str (s : String)
deriving DecidableEq, Repr

/--
lodash `_.isEmpty` applied to a raw `schema_version` value: `true` on
`undefined`, `null` and every number (numbers have no length/size in
lodash); on a string it tests for the empty string.
-/
def RawVersion.isEmpty : RawVersion → Bool
  | .absent => true
  | .rnull => true
  | .num _ => true
  | .str s => s == ""

/--
Modelled from the spec: `Util.reportMessageAndExit`
(`generator/src/util.ts`, not under `src/`) aborts the run with the
given message; per §4.2/§7 a version check failure surfaces as the
`SchemaVersionMismatch` error, carrying the offending raw value.
-/
inductive DecodeError where
  | schemaVersionMismatch (found : RawVersion)
deriving DecidableEq, Repr

/-- The constant `MetaField.PROFILE_SCHEMA_VERSION` (profile.ts line 18). -/
def PROFILE_SCHEMA_VERSION : Int := 1

/--
The metadata envelope `MetaField` (profile.ts lines 16-50).
`schema_version` holds the JS value left in the field after the decode
hook ran (the TS `number` annotation is erased at runtime, so the field
is modelled by the raw-value type).
-/
structure MetaField where
  agent : String
  github_user : String
  github_repository : String
  ignored_repositories : List String
  schema_version : RawVersion
  schema_created_at : String
  schema_collected_ats : List String
deriving DecidableEq, Repr

/--
The raw `_$meta` JSON subtree handed to `MetaField.OnDeserialized`.
For `schema_created_at`, `none` models an absent or `null` value and
`some s` a string; likewise for `schema_collected_ats` with an array of
strings.  The plain string fields are decoded mechanically by the
serialization library (`@deserialize`) and are passed through.
-/
structure RawMeta where
  agent : String
  github_user : String
  github_repository : String
  ignored_repositories : List String
  schema_version : RawVersion
  schema_created_at : Option String
  schema_collected_ats : Option (List String)
deriving DecidableEq, Repr

/--
Decoding a `MetaField`: the library field population followed by the
`MetaField.OnDeserialized` hook (profile.ts lines 32-49).

The version gate is the JS test
`null !== profSchemaVersion && profSchemaVersion !== MetaField.PROFILE_SCHEMA_VERSION`:
under strict (`!==`) comparison the only raw values that pass are the
literal `null` and the number `1`, so in particular an absent
(`undefined`) `schema_version` takes the error branch.  After the gate,
`_.isEmpty` defaulting replaces the surviving value (`null` or `1`,
both empty for lodash) by `PROFILE_SCHEMA_VERSION`.  `now` is
`MetaField.CURRENT_DATE`.
-/
def decodeMeta (now : String) (json : RawMeta) : Except DecodeError MetaField :=
  if ¬ json.schema_version = RawVersion.rnull ∧
      ¬ json.schema_version = RawVersion.num PROFILE_SCHEMA_VERSION then
    .error (.schemaVersionMismatch json.schema_version)
  else
    let profSchemaVersion :=
      if json.schema_version.isEmpty then RawVersion.num PROFILE_SCHEMA_VERSION
      else json.schema_version
    let created_at :=
      match json.schema_created_at with
      | none => now
      | some s => if s = "" then now else s
    let collected_ats :=
      match json.schema_collected_ats with
      | none => [now]
      | some l => if l = [] then [now] else l
    .ok { agent := json.agent
          github_user := json.github_user
          github_repository := json.github_repository
          ignored_repositories := json.ignored_repositories
          schema_version := profSchemaVersion
          schema_created_at := created_at
          schema_collected_ats := collected_ats }

/--
The `Profile` aggregate (profile.ts lines 52-94).  `user`, `languages`
and `repositories` are opaque to every operation verified here and are
kept as passthrough data; an `activities` entry is `Option GithubEvent`
as in `mergeActs`.
-/
structure Profile where
  «_$meta» : MetaField
  user : String
  languages : List String
  repositories : List String
  activities : List (Option GithubEvent)
deriving DecidableEq, Repr

/--
The merge metadata roll-forward `Profile.updateMeta` (profile.ts lines
74-89), value-level view:

```ts
let currentMeta = currentProfile._$meta;
let meta: MetaField = Util.copyObject(prevMeta);
meta.schema_collected_ats.push(MetaField.CURRENT_DATE);
meta.ignored_repositories = _.union(
  currentMeta.ignored_repositories, prevMeta.ignored_repositories);
currentProfile._$meta = meta;
return currentProfile;
```

`now` is `MetaField.CURRENT_DATE`.  The copy starts from `prevMeta`, so
every field not reassigned afterwards (in particular
`schema_created_at`) keeps the previous snapshot's value.
-/
def Profile.updateMeta (now : String) (currentProfile : Profile) (prevMeta : MetaField) :
    Profile :=
  let currentMeta := currentProfile.«_$meta»
  let meta : MetaField :=
    { prevMeta with
      schema_collected_ats := prevMeta.schema_collected_ats ++ [now]
      ignored_repositories :=
        lodashUnion currentMeta.ignored_repositories prevMeta.ignored_repositories }
  { currentProfile with «_$meta» := meta }

/-!
## Heap-level view of `Profile.updateMeta`

`Profile.updateMeta` mutates JS arrays (`push`) and object fields, so
the frame property "the previous `MetaField` is left unchanged" is
about aliasing.  The model below makes the two array-valued fields of a
`MetaField` references into an explicit store of string-array cells and
re-traces profile.ts lines 74-89 statement by statement on that store.
-/

/-- A store of JS string-array cells; a reference is an index. -/
structure Store where
  cells : List (List String)
deriving DecidableEq, Repr

/-- Reading a cell (out-of-range reads return `[]`; the theorems only
use valid references). -/
def Store.read (s : Store) (r : Nat) : List String :=
  s.cells.getD r []

/-- Allocating a fresh cell, returning the new store and the reference. -/
def Store.alloc (s : Store) (v : List String) : Store × Nat :=
  (⟨s.cells ++ [v]⟩, s.cells.length)

/-- Overwriting the contents of a cell in place. -/
def Store.write (s : Store) (r : Nat) (v : List String) : Store :=
  ⟨s.cells.set r v⟩

/--
A `MetaField` as a JS object: scalar fields inline, the two
array-valued fields as references into the store.
-/
structure MetaFieldRef where
  agent : String
  github_user : String
  github_repository : String
  ignored_repositories : Nat
  schema_version : RawVersion
  schema_created_at : String
  schema_collected_ats : Nat
deriving DecidableEq, Repr

/--
Modelled from the spec: `Util.copyObject` (`generator/src/util.ts`, not
under `src/`).  Per §4.4 step 3 ("Copy `previous.meta`") and §5 ("every
merge operation is a pure function from two immutable snapshots"), the
copy is a full one: both array-valued fields of the copy are freshly
allocated cells holding the same contents, aliasing nothing.
-/
def copyObject (s : Store) (m : MetaFieldRef) : Store × MetaFieldRef :=
  let (s1, c) := s.alloc (s.read m.schema_collected_ats)
  let (s2, i) := s1.alloc (s1.read m.ignored_repositories)
  (s2, { m with schema_collected_ats := c, ignored_repositories := i })

/--
The merge metadata roll-forward `Profile.updateMeta` (profile.ts lines
74-89) on the store model.
`curMeta` is `currentProfile._$meta`; the result is the `meta` object
assigned into `currentProfile._$meta` plus the final store.
`meta.schema_collected_ats.push(...)` is an in-place write to the
copy's cell; `meta.ignored_repositories = _.union(...)` rebinds the
copy's field to the fresh array returned by lodash.
-/
def updateMetaRef (now : String) (s : Store) (curMeta prevMeta : MetaFieldRef) :
    Store × MetaFieldRef :=
  let (s1, meta) := copyObject s prevMeta
  let s2 := s1.write meta.schema_collected_ats
      (s1.read meta.schema_collected_ats ++ [now])
  let (s3, u) := s2.alloc
      (lodashUnion (s2.read curMeta.ignored_repositories)
        (s2.read prevMeta.ignored_repositories))
  (s3, { meta with ignored_repositories := u })

section StoreLemmas

/-- Allocation does not disturb a valid existing cell. -/
theorem Store.read_alloc (s : Store) (v : List String) (r : Nat)
    (h : r < s.cells.length) : (s.alloc v).1.read r = s.read r := by
  simp only [Store.alloc, Store.read]
  exact List.getD_append _ _ _ _ h

/-- Writing one cell does not disturb a different cell. -/
theorem Store.read_write_ne (s : Store) (i : Nat) (v : List String) (r : Nat)
    (h : r ≠ i) : (s.write i v).read r = s.read r := by
  simp only [Store.write, Store.read, List.getD_eq_getElem?_getD]
  rw [List.getElem?_set_ne (fun hc => h hc.symm)]

/-- Allocation leaves every old index intact and the fresh reference is
past the end of the old store. -/
theorem Store.alloc_spec (s : Store) (v : List String) :
    (s.alloc v).2 = s.cells.length ∧ (s.alloc v).1.cells.length = s.cells.length + 1 := by
  simp [Store.alloc]

end StoreLemmas

/-!
## Claims
-/

/--
C1: for every previous activity sequence `B` and fresh activity
sequence `A`, the merged activities are the concatenation `A ++ B`
restricted to the first occurrence of each `event_id`, in order of
first occurrence (the merge is an order-preserving sublist of `A ++ B`
with pairwise distinct ids covering every input id, and the entry kept
for each id is the first entry of `A ++ B` carrying it); consequently,
for any `event_id` present in both `A` and `B`, the merged output
contains `A`'s (fresh) copy of that event.
-/
theorem merge_is_first_occurrence_dedup_fresh_wins (A B : List GithubEvent) :
    (mergeActs (A.map some) (B.map some)).Sublist (A ++ B) ∧
    ((mergeActs (A.map some) (B.map some)).map GithubEvent.event_id).Nodup ∧
    (∀ i, i ∈ (A ++ B).map GithubEvent.event_id →
      i ∈ (mergeActs (A.map some) (B.map some)).map GithubEvent.event_id) ∧
    (∀ i, (mergeActs (A.map some) (B.map some)).find? (fun e => e.event_id == i)
      = (A ++ B).find? (fun e => e.event_id == i)) ∧
    (∀ i, i ∈ A.map GithubEvent.event_id → i ∈ B.map GithubEvent.event_id →
      (mergeActs (A.map some) (B.map some)).find? (fun e => e.event_id == i)
          = A.find? (fun e => e.event_id == i) ∧
        (A.find? (fun e => e.event_id == i)).isSome) := by
  rw [mergeActs_map_some]
  refine ⟨uniqueActs_sublist _ _, (uniqueActs_ids_nodup _ _).1,
    fun i hi => uniqueActs_ids_cover _ _ i hi (List.not_mem_nil i),
    fun i => uniqueActs_find? _ _ i (List.not_mem_nil i), fun i hiA _ => ?_⟩
  have hsome : (A.find? (fun e => e.event_id == i)).isSome := by
    rw [List.find?_isSome]
    obtain ⟨e, he, heq⟩ := List.mem_map.mp hiA
    exact ⟨e, he, by simp [heq]⟩
  refine ⟨?_, hsome⟩
  rw [uniqueActs_find? _ _ i (List.not_mem_nil i), List.find?_append]
  obtain ⟨v, hv⟩ := Option.isSome_iff_exists.mp hsome
  rw [hv, Option.or_some]

/--
C1 witness: merging a fresh list and a previous list that share
`event_id` "1" keeps the fresh copy (payload "fresh") as the entry for
that id.
-/
theorem merge_is_first_occurrence_dedup_fresh_wins_witness :
    (mergeActs [some ⟨some "1", "PushEvent", "fresh"⟩]
        [some ⟨some "1", "PushEvent", "prev"⟩]).find?
        (fun e => e.event_id == some "1")
      = some ⟨some "1", "PushEvent", "fresh"⟩ := by
  have h := (merge_is_first_occurrence_dedup_fresh_wins
      [⟨some "1", "PushEvent", "fresh"⟩] [⟨some "1", "PushEvent", "prev"⟩]).2.2.2.2
      (some "1") (by decide) (by decide)
  simp only [List.map_cons, List.map_nil] at h
  rw [h.1]
  decide

/--
C3 counterexample: the claim "every activity entry whose `event_id` is
empty or missing is dropped from the merged activities" is false: the
merge filter `!_.isEmpty(a)` tests the whole entry, not its
`event_id`, so an event object with an empty `event_id` survives.
Here `mergeActs [some e] [] = [e]` for `e` with `event_id = ""`.
-/
theorem empty_event_id_survives_merge_cex :
    ¬ (∀ (A B : List (Option GithubEvent)) (e : GithubEvent), e ∈ mergeActs A B →
        ¬ (e.event_id = none ∨ e.event_id = some "")) := by
  intro h
  exact h [some ⟨some "", "PushEvent", "p0"⟩] [] ⟨some "", "PushEvent", "p0"⟩
    (by decide) (Or.inr rfl)

/--
C3 amended: during merge, entries that are wholly empty
(`undefined`/`null`/keyless objects, the `none` entries) are dropped —
every merged event comes from an actual event entry of the inputs — but
entries whose `event_id` is empty or missing are NOT dropped: the first
entry of the concatenation always survives whatever its `event_id`
(later entries with the same, possibly empty, id are the ones removed).
-/
theorem empty_entries_dropped_empty_ids_kept (A B : List (Option GithubEvent))
    (e : GithubEvent) :
    (e ∈ mergeActs A B → some e ∈ A ++ B) ∧ e ∈ mergeActs (some e :: A) B := by
  constructor
  · intro hmem
    have hsub := uniqueActs_sublist ((A ++ B).filterMap id) []
    obtain ⟨x, hx, hid⟩ := List.mem_filterMap.mp (hsub.mem hmem)
    exact (show x = some e from hid) ▸ hx
  · show e ∈ uniqueActs (e :: (A ++ B).filterMap id) []
    rw [uniqueActs, if_neg (List.not_mem_nil e.event_id)]
    exact List.mem_cons_self _ _

/--
C3 amended witness: the event with empty `event_id` "" is itself kept
by the merge, and everything the merge keeps is an input entry.
-/
theorem empty_entries_dropped_empty_ids_kept_witness :
    ((⟨some "", "PushEvent", "p0"⟩ : GithubEvent) ∈
        mergeActs [some ⟨some "", "PushEvent", "p0"⟩] [] →
      some (⟨some "", "PushEvent", "p0"⟩ : GithubEvent) ∈
        ([some ⟨some "", "PushEvent", "p0"⟩] ++ [])) ∧
    (⟨some "", "PushEvent", "p0"⟩ : GithubEvent) ∈
      mergeActs [some ⟨some "", "PushEvent", "p0"⟩, some ⟨some "", "PushEvent", "p0"⟩] [] :=
  empty_entries_dropped_empty_ids_kept [some ⟨some "", "PushEvent", "p0"⟩] []
    ⟨some "", "PushEvent", "p0"⟩

/--
C5: for every previous `MetaField`, the merged profile's
`schema_collected_ats` is the previous `schema_collected_ats` with
exactly one new timestamp (`MetaField.CURRENT_DATE`, here `now`)
appended at the end — nothing removed or reordered.
-/
theorem collected_ats_grows_by_one (now : String) (cur : Profile) (prevMeta : MetaField) :
    (Profile.updateMeta now cur prevMeta).«_$meta».schema_collected_ats
      = prevMeta.schema_collected_ats ++ [now] := rfl

/--
C8: the merged profile's `schema_created_at` is the previous
snapshot's `schema_created_at`: `updateMeta` copies the previous meta
and never reassigns the creation timestamp.
-/
theorem created_at_never_overwritten (now : String) (cur : Profile) (prevMeta : MetaField) :
    (Profile.updateMeta now cur prevMeta).«_$meta».schema_created_at
      = prevMeta.schema_created_at := rfl

/--
C6: after a merge the new `ignored_repositories` is the set union of
the requested ignore list (stored as the current profile's
`_$meta.ignored_repositories` by `createProfile`, profile.ts line 196)
and the previous snapshot's `ignored_repositories`; in particular it
contains every previously ignored repository, so over any sequence of
merges the ignore set after merge N is a superset of its value after
merge N−1.
-/
theorem ignored_repositories_union_monotone (now : String) (cur : Profile)
    (prevMeta : MetaField) :
    (∀ x, x ∈ (Profile.updateMeta now cur prevMeta).«_$meta».ignored_repositories ↔
        (x ∈ cur.«_$meta».ignored_repositories ∨ x ∈ prevMeta.ignored_repositories)) ∧
    (∀ x ∈ prevMeta.ignored_repositories,
      x ∈ (Profile.updateMeta now cur prevMeta).«_$meta».ignored_repositories) := by
  refine ⟨fun x => mem_lodashUnion _ _ x, fun x hx => ?_⟩
  exact (mem_lodashUnion _ _ x).mpr (Or.inr hx)

/--
C6 witness: concrete merge with requested ignores `["repoB"]` over a
previous ignore set `["repoA"]`: membership is the union and the
previous entry "repoA" is still ignored.
-/
theorem ignored_repositories_union_monotone_witness :
    ("repoA" ∈ (Profile.updateMeta "T"
        ⟨⟨"", "", "", ["repoB"], .num 1, "C", ["C"]⟩, "u", [], [], []⟩
        ⟨"", "", "", ["repoA"], .num 1, "C", ["C"]⟩).«_$meta».ignored_repositories
      ↔ ("repoA" ∈ ["repoB"] ∨ "repoA" ∈ ["repoA"])) ∧
    "repoA" ∈ (Profile.updateMeta "T"
        ⟨⟨"", "", "", ["repoB"], .num 1, "C", ["C"]⟩, "u", [], [], []⟩
        ⟨"", "", "", ["repoA"], .num 1, "C", ["C"]⟩).«_$meta».ignored_repositories := by
  have h := ignored_repositories_union_monotone "T"
      ⟨⟨"", "", "", ["repoB"], .num 1, "C", ["C"]⟩, "u", [], [], []⟩
      ⟨"", "", "", ["repoA"], .num 1, "C", ["C"]⟩
  exact ⟨h.1 "repoA", h.2 "repoA" (by decide)⟩

/--
C7: merging a snapshot with an identical copy of itself and an empty
requested-ignore set is idempotent on activities: for a well-formed
snapshot (no empty entries, pairwise-distinct `event_id`s, as any
snapshot produced by the dedup merge is), the merged activities equal
`acts` itself — hence the same set and the same count, no duplicates
introduced — while `schema_collected_ats` grows by exactly one entry.
-/
theorem self_merge_idempotent (now : String) (p : Profile) (acts : List GithubEvent)
    (hacts : p.activities = acts.map some)
    (hnd : (acts.map GithubEvent.event_id).Nodup) :
    mergeActs p.activities p.activities = acts ∧
    (mergeActs p.activities p.activities).length = acts.length ∧
    (∀ e : GithubEvent, e ∈ mergeActs p.activities p.activities ↔ some e ∈ p.activities) ∧
    (Profile.updateMeta now p p.«_$meta»).«_$meta».schema_collected_ats
      = p.«_$meta».schema_collected_ats ++ [now] := by
  have hmerge : mergeActs p.activities p.activities = acts := by
    rw [hacts, mergeActs_map_some, uniqueActs_append]
    have h1 : uniqueActs acts [] = acts :=
      uniqueActs_keep_all acts [] hnd fun e _ => List.not_mem_nil _
    rw [h1, uniqueActs_drop_all, List.append_nil]
    intro e he
    exact List.mem_append_left _ (List.mem_map_of_mem GithubEvent.event_id he)
  refine ⟨hmerge, by rw [hmerge], fun e => ?_, rfl⟩
  rw [hmerge, hacts]
  constructor
  · intro he; exact List.mem_map_of_mem some he
  · intro he
    obtain ⟨x, hx, hxe⟩ := List.mem_map.mp he
    exact (Option.some.inj hxe) ▸ hx

/--
C7 witness: the concrete snapshot with activities `[id "1", id "2"]`
self-merges to itself (same list, length 2) and its collected
timestamps `["2020"]` grow to `["2020", "T"]`.
-/
theorem self_merge_idempotent_witness :
    mergeActs [some (⟨some "1", "PushEvent", "a"⟩ : GithubEvent),
        some ⟨some "2", "IssuesEvent", "b"⟩]
      [some ⟨some "1", "PushEvent", "a"⟩, some ⟨some "2", "IssuesEvent", "b"⟩]
      = [⟨some "1", "PushEvent", "a"⟩, ⟨some "2", "IssuesEvent", "b"⟩] ∧
    (Profile.updateMeta "T"
        ⟨⟨"", "", "", [], .num 1, "2020", ["2020"]⟩, "u", [], [],
          [some ⟨some "1", "PushEvent", "a"⟩, some ⟨some "2", "IssuesEvent", "b"⟩]⟩
        ⟨"", "", "", [], .num 1, "2020", ["2020"]⟩).«_$meta».schema_collected_ats
      = ["2020"] ++ ["T"] := by
  have h := self_merge_idempotent "T"
      ⟨⟨"", "", "", [], .num 1, "2020", ["2020"]⟩, "u", [], [],
        [some ⟨some "1", "PushEvent", "a"⟩, some ⟨some "2", "IssuesEvent", "b"⟩]⟩
      [⟨some "1", "PushEvent", "a"⟩, ⟨some "2", "IssuesEvent", "b"⟩] rfl (by decide)
  exact ⟨h.1, h.2.2.2⟩

/--
C2, evaluation at the failing input: decoding a raw document whose
`schema_version` key is absent (JS `undefined`) does NOT succeed with
the default version — the strict guard `null !== profSchemaVersion` is
true for `undefined`, so `OnDeserialized` takes the
`reportMessageAndExit` branch and decoding fails, contradicting the
claimed defaulting behaviour (the `_.isEmpty` defaulting on the next
line of the hook is unreachable for `undefined`).
-/
theorem decode_absent_version_fails :
    decodeMeta "2020-01-01T00:00:00Z"
      { agent := "", github_user := "", github_repository := "",
        ignored_repositories := [], schema_version := .absent,
        schema_created_at := none, schema_collected_ats := none }
      = .error (.schemaVersionMismatch .absent) := rfl

/--
C4: a successfully decoded `MetaField` is never partially populated:
whenever decoding returns a result, a raw `schema_version` that is
empty in lodash's sense has been replaced by the supported version, an
absent or empty raw `schema_created_at` by the current timestamp, and
an absent or empty raw `schema_collected_ats` by the one-element
timestamp list (the result's fields are total — never null).
-/
theorem decode_fills_all_defaults (now : String) (json : RawMeta) (m : MetaField)
    (h : decodeMeta now json = .ok m) :
    (json.schema_version.isEmpty = true →
      m.schema_version = RawVersion.num PROFILE_SCHEMA_VERSION) ∧
    ((json.schema_created_at = none ∨ json.schema_created_at = some "") →
      m.schema_created_at = now) ∧
    ((json.schema_collected_ats = none ∨ json.schema_collected_ats = some ([] : List String)) →
      m.schema_collected_ats = [now]) := by
  by_cases hv : ¬ json.schema_version = RawVersion.rnull ∧
      ¬ json.schema_version = RawVersion.num PROFILE_SCHEMA_VERSION
  · rw [decodeMeta, if_pos hv] at h
    exact absurd h (by simp)
  · rw [decodeMeta, if_neg hv] at h
    have hm := Except.ok.inj h
    refine ⟨fun he => ?_, fun hc => ?_, fun hc => ?_⟩
    · rw [← hm]; simp [he]
    · rcases hc with hc | hc <;> rw [← hm] <;> simp [hc]
    · rcases hc with hc | hc <;> rw [← hm] <;> simp [hc]

/--
C4 witness: decoding a raw meta with `schema_version = null`,
`schema_created_at = ""` and `schema_collected_ats` absent fills all
three defaults at timestamp "T".
-/
theorem decode_fills_all_defaults_witness :
    ((RawVersion.rnull.isEmpty = true →
      (⟨"", "", "", [], .num PROFILE_SCHEMA_VERSION, "T", ["T"]⟩ : MetaField).schema_version
        = RawVersion.num PROFILE_SCHEMA_VERSION) ∧
    (((some "" : Option String) = none ∨ (some "" : Option String) = some "") →
      (⟨"", "", "", [], .num PROFILE_SCHEMA_VERSION, "T", ["T"]⟩ : MetaField).schema_created_at
        = "T") ∧
    (((none : Option (List String)) = none ∨
        (none : Option (List String)) = some ([] : List String)) →
      (⟨"", "", "", [], .num PROFILE_SCHEMA_VERSION, "T", ["T"]⟩ : MetaField).schema_collected_ats
        = ["T"])) :=
  decode_fills_all_defaults "T"
    { agent := "", github_user := "", github_repository := "",
      ignored_repositories := [], schema_version := .rnull,
      schema_created_at := some "", schema_collected_ats := none }
    ⟨"", "", "", [], .num PROFILE_SCHEMA_VERSION, "T", ["T"]⟩ rfl

/--
C10: every `MetaField` that decoding returns successfully carries
`schema_version = PROFILE_SCHEMA_VERSION`: the only raw values passing
the strict version gate are `null` and the number 1, and both are
empty for lodash, so the defaulting assignment stores the supported
version in either case.
-/
theorem decoded_version_is_supported (now : String) (json : RawMeta) (m : MetaField)
    (h : decodeMeta now json = .ok m) :
    m.schema_version = RawVersion.num PROFILE_SCHEMA_VERSION := by
  by_cases hv : ¬ json.schema_version = RawVersion.rnull ∧
      ¬ json.schema_version = RawVersion.num PROFILE_SCHEMA_VERSION
  · rw [decodeMeta, if_pos hv] at h
    exact absurd h (by simp)
  · rw [decodeMeta, if_neg hv] at h
    rw [← Except.ok.inj h]
    rcases not_and_or.mp hv with hv | hv <;>
      rw [not_not] at hv <;> simp [hv, RawVersion.isEmpty]

/--
C10 witness: a concrete successful decode (raw version explicitly
`null`) yields the supported version.
-/
theorem decoded_version_is_supported_witness :
    (⟨"", "", "", [], .num PROFILE_SCHEMA_VERSION, "T", ["T"]⟩ : MetaField).schema_version
      = RawVersion.num PROFILE_SCHEMA_VERSION :=
  decoded_version_is_supported "T"
    { agent := "", github_user := "", github_repository := "",
      ignored_repositories := [], schema_version := .rnull,
      schema_created_at := some "", schema_collected_ats := none }
    ⟨"", "", "", [], .num PROFILE_SCHEMA_VERSION, "T", ["T"]⟩ rfl

/-- Reading a cell below the original store length is unaffected by the
two copy allocations, the push write to the first fresh cell, and the
union allocation. -/
theorem getD_final_store (cells : List (List String)) (v1 v2 w u : List String) (r : Nat)
    (h : r < cells.length) :
    ((((cells ++ [v1]) ++ [v2]).set cells.length w) ++ [u]).getD r []
      = cells.getD r [] := by
  have hlen : ((((cells ++ [v1]) ++ [v2]).set cells.length w)).length
      = cells.length + 2 := by
    simp [List.length_set, List.length_append]
  rw [List.getD_append _ _ _ _ (by omega)]
  have hne : cells.length ≠ r := Nat.ne_of_gt h
  rw [List.getD_eq_getElem?_getD, List.getElem?_set_ne hne, ← List.getD_eq_getElem?_getD]
  rw [List.getD_append _ _ _ _ (by simp [List.length_append]; omega)]
  exact List.getD_append _ _ _ _ h

/--
C9: producing the merged metadata never mutates the previous
`MetaField`: on the store model of profile.ts lines 74-89 (with
`Util.copyObject` a full copy, per §4.4/§5 of the spec), after
`updateMeta` runs, the previous meta's `schema_collected_ats` and
`ignored_repositories` cells read back exactly their old contents —
the push lands on the copy's fresh cell and the union is a freshly
allocated array, so the previous snapshot is completely unchanged.
-/
theorem previous_meta_never_mutated (now : String) (s : Store)
    (curMeta prevMeta : MetaFieldRef)
    (hc : prevMeta.schema_collected_ats < s.cells.length)
    (hi : prevMeta.ignored_repositories < s.cells.length) :
    (updateMetaRef now s curMeta prevMeta).1.read prevMeta.schema_collected_ats
        = s.read prevMeta.schema_collected_ats ∧
    (updateMetaRef now s curMeta prevMeta).1.read prevMeta.ignored_repositories
        = s.read prevMeta.ignored_repositories := by
  constructor
  · exact getD_final_store s.cells _ _ _ _ _ hc
  · exact getD_final_store s.cells _ _ _ _ _ hi

/--
C9 witness: a concrete two-cell store (cell 0 the previous collected
timestamps, cell 1 the previous ignore list) is read back unchanged
after `updateMeta`.
-/
theorem previous_meta_never_mutated_witness :
    ((updateMetaRef "T" ⟨[["2020"], ["repoA"]]⟩
        ⟨"", "", "", 1, .num 1, "C", 0⟩ ⟨"", "", "", 1, .num 1, "2020", 0⟩).1.read 0
      = (⟨[["2020"], ["repoA"]]⟩ : Store).read 0) ∧
    ((updateMetaRef "T" ⟨[["2020"], ["repoA"]]⟩
        ⟨"", "", "", 1, .num 1, "C", 0⟩ ⟨"", "", "", 1, .num 1, "2020", 0⟩).1.read 1
      = (⟨[["2020"], ["repoA"]]⟩ : Store).read 1) :=
  previous_meta_never_mutated "T" ⟨[["2020"], ["repoA"]]⟩
    ⟨"", "", "", 1, .num 1, "C", 0⟩ ⟨"", "", "", 1, .num 1, "2020", 0⟩
    (by decide) (by decide)
